import Mathlib

/-!
Verification development for the BrandMeister zone generator (`zone.py`).

The engine is shallowly embedded: Python strings become `List Char`, Python
`str(int)` becomes `decRepr`, the record dictionaries become structures, and
the selection / partitioning / table-writing functions become executable Lean
definitions translated line by line from `zone.py`.  Floating-point geodesy
(`check_distance`, an external collaborator) is abstracted as a boolean
predicate parameter on records, and the BrandMeister network lookups are
abstracted as function parameters, matching the spec's "external collaborator"
boundary.  Python's `str.upper`/`str.isdigit` are modelled by their ASCII
behaviour (character-wise), which is the behaviour on the data this program
processes.
-/

namespace AnyBM

/-- Python whitespace test for `str.split()` / `str.strip()` (ASCII subset). -/
def isSpaceM (c : Char) : Bool :=
  c = ' ' ∨ c = '\t' ∨ c = '\n' ∨ c = '\r'

/-- ASCII digit test, modelling Python `str.isdigit` character test on the
ASCII strings this program handles. -/
def isDigitM (c : Char) : Bool :=
  48 ≤ c.toNat ∧ c.toNat ≤ 57

/-- Decimal digit character, as produced by Python `str(int)`. -/
def digitCharM : Nat → Char
  | 0 => '0' | 1 => '1' | 2 => '2' | 3 => '3' | 4 => '4'
  | 5 => '5' | 6 => '6' | 7 => '7' | 8 => '8' | _ => '9'

/-- Little-endian digit list of `n`; `fuel` bounds the recursion so the
definition is structural (any `fuel ≥ n` gives the digits of `n`). -/
def digitsRevAux (fuel n : Nat) : List Char :=
  match fuel with
  | 0 => []
  | fuel + 1 => if n = 0 then [] else digitCharM (n % 10) :: digitsRevAux fuel (n / 10)

/-- Python `str(n)` for a nonnegative integer: its decimal representation. -/
def decRepr (n : Nat) : List Char :=
  if n = 0 then ['0'] else (digitsRevAux n n).reverse

/-- Numeric value of a little-endian digit list (proof tool for `decRepr`). -/
def parseRevD : List Char → Nat
  | [] => 0
  | c :: t => (c.toNat - 48) + 10 * parseRevD t

/-- Python `int(s)` on a string of decimal digits. -/
def parseNatL (s : List Char) : Nat :=
  s.foldl (fun a c => 10 * a + (c.toNat - 48)) 0

/-- Python `s.isdigit()`: nonempty and all digits. -/
def pyIsDigit (s : List Char) : Bool :=
  !s.isEmpty && s.all isDigitM

/-- Python substring test `pat in hay`. -/
def pyIn (pat : List Char) : List Char → Bool
  | [] => pat.isEmpty
  | c :: t => pat.isPrefixOf (c :: t) || pyIn pat t

/-- Python `s.strip()`. -/
def pyStrip (s : List Char) : List Char :=
  ((s.dropWhile isSpaceM).reverse.dropWhile isSpaceM).reverse

/-- Python `s.rstrip()`. -/
def pyRstrip (s : List Char) : List Char :=
  (s.reverse.dropWhile isSpaceM).reverse

/-- Python `s.split(',')[0]`: the text before the first comma. -/
def beforeComma (s : List Char) : List Char :=
  s.takeWhile (fun c => c ≠ ',')

/-- Python `s.split()` (no separator): whitespace-delimited tokens, no empties.
`cur` accumulates the current token reversed. -/
def pySplitAux : List Char → List Char → List (List Char)
  | [], cur => if cur.isEmpty then [] else [cur.reverse]
  | c :: t, cur =>
    if isSpaceM c then
      if cur.isEmpty then pySplitAux t [] else cur.reverse :: pySplitAux t []
    else pySplitAux t (c :: cur)

/-- Python `s.split()`. -/
def pySplit (s : List Char) : List (List Char) :=
  pySplitAux s []

/-- Python `s.replace(a, b)` for single characters. -/
def pyReplaceChar (a b : Char) (s : List Char) : List Char :=
  s.map (fun c => if c = a then b else c)

/-- Python `s.replace(' ', '')`: remove all spaces. -/
def pyDropSpaces (s : List Char) : List Char :=
  s.filter (fun c => c ≠ ' ')

/-! ### Data model (`zone.py` records and configuration) -/

/-- A repeater `id` from the JSON list: numeric, or a numeric string. -/
inductive IdVal
  | num (n : Nat)
  | str (s : List Char)
deriving DecidableEq

/-- Python `str(item['id'])`. -/
def idStr : IdVal → List Char
  | .num n => decRepr n
  | .str s => s

/-- Python `int(item['id'])` (the sort key; ids in the data are numeric). -/
def idInt : IdVal → Nat
  | .num n => n
  | .str s => parseNatL s

/-- One RepeaterRecord of the input list.  `lat`/`lng` are consumed only by
the floating-point distance collaborator, which is abstracted into
`Cfg.geoOk`, so they are not carried here.  `pep = none` models a null
power entry (`str(None) = "None"`, treated as undefined). -/
structure Rpt where
  id : IdVal
  callsign : List Char
  rx : List Char
  tx : List Char
  colorcode : List Char
  city : List Char
  pep : Option (List Char)
  lastSeen : List Char
deriving DecidableEq

inductive Band
  | vhf | uhf | both
deriving DecidableEq

inductive SelType
  | mcc | qth | gps
deriving DecidableEq

/-- `args.mcc` after resolution: a single numeric string, or (for two-letter
country codes mapping to several prefixes) a list of them. -/
inductive MccSpec
  | one (s : List Char)
  | many (l : List (List Char))
deriving DecidableEq

/-- The parsed command-line configuration (FilterCriteria).  `geoOk r` stands
for `check_distance(qth_coords, (r.lat, r.lng)) <= args.radius`, the
great-circle collaborator. `pep = none` means the `-p` flag was absent;
`some "0"` is the bare flag (argparse `const='0'`). -/
structure Cfg where
  band : Band
  stype : SelType
  mcc : MccSpec
  geoOk : Rpt → Bool
  pep : Option (List Char)
  six : Bool
  csFilter : Option (List Char)

/-! ### SelectionPipeline (`filter_list`) -/

/-- `str(item['pep'])`. -/
def pepStr : Option (List Char) → List Char
  | none => ['N', 'o', 'n', 'e']
  | some s => s

/-- The power filter of `filter_list` (lines 129-134): returns `true` when the
record is skipped on power grounds. -/
def pepSkip (argsPep : Option (List Char)) (pep : Option (List Char)) : Bool :=
  match argsPep with
  | none => false
  | some ap =>
    if ap.isEmpty then false
    else
      let ps := pepStr pep
      if pyIsDigit ps = false ∨ ps = ['0'] then true
      else if ap ≠ ['0'] ∧ parseNatL ps < parseNatL ap then true
      else false

/-- Band filter: `rx` must start with '1' (vhf) or '4' (uhf) unless both. -/
def bandOk (cfg : Cfg) (r : Rpt) : Bool :=
  match cfg.band with
  | .both => true
  | .vhf => ['1'].isPrefixOf r.rx
  | .uhf => ['4'].isPrefixOf r.rx

/-- `str(item['id']).startswith(mcc)` over one or several prefixes. -/
def mccMatch : MccSpec → List Char → Bool
  | .one s, idS => s.isPrefixOf idS
  | .many l, idS => l.any (fun m => m.isPrefixOf idS)

/-- Selection-mode filter: mcc prefix match, or distance within radius. -/
def typeOk (cfg : Cfg) (r : Rpt) : Bool :=
  match cfg.stype with
  | .mcc => mccMatch cfg.mcc (idStr r.id)
  | .qth => cfg.geoOk r
  | .gps => cfg.geoOk r

/-- 6-digit-ID filter. -/
def sixOk (cfg : Cfg) (r : Rpt) : Bool :=
  if cfg.six then decide ((idStr r.id).length = 6) else true

/-- Callsign-substring filter (`args.callsign and not args.callsign in cs`). -/
def csOk (cfg : Cfg) (r : Rpt) : Bool :=
  match cfg.csFilter with
  | none => true
  | some f => if f.isEmpty then true else pyIn f r.callsign

/-- All skip-filters of the `filter_list` loop, in source order. -/
def passes (cfg : Cfg) (r : Rpt) : Bool :=
  bandOk cfg r && typeOk cfg r && !pepSkip cfg.pep r.pep && sixOk cfg r && csOk cfg r

/-- Callsign normalisation (lines 143-146): an empty callsign is replaced by
the raw `id`, then the first whitespace token is taken.  `none` models the
two exceptions: `.split()` on an `int` (AttributeError) and `[0]` on an
empty token list (IndexError). -/
def normCallsign (cs : List Char) (id : IdVal) : Option (List Char) :=
  if cs.isEmpty then
    match id with
    | .num _ => none
    | .str s => (pySplit s).head?
  else (pySplit cs).head?

/-- Python string `<` (lexicographic by code point). -/
def strLtM : List Char → List Char → Bool
  | [], [] => false
  | [], _ :: _ => true
  | _ :: _, [] => false
  | a :: as, b :: bs =>
    if a.toNat < b.toNat then true
    else if a.toNat = b.toNat then strLtM as bs
    else false

/-- Strict order on the sort key `(callsign, int(id))` of line 103. -/
def keyLt (a b : Rpt) : Bool :=
  if strLtM a.callsign b.callsign then true
  else if a.callsign = b.callsign then decide (idInt a.id < idInt b.id)
  else false

/-- Insert before the first element not strictly below `x` (stable). -/
def insertBy (lt : α → α → Bool) (x : α) : List α → List α
  | [] => [x]
  | y :: t => if lt y x then y :: insertBy lt x t else x :: y :: t

/-- Stable insertion sort, modelling Python `sorted`. -/
def sortBy (lt : α → α → Bool) : List α → List α
  | [] => []
  | x :: t => insertBy lt x (sortBy lt t)

/-- State of the retention loop: retained `(record, turn)` pairs in order,
and the per-callsign occurrence counter (`existing`). -/
abbrev SelSt := List (Rpt × Nat) × (List Char → Nat)

/-- The dedup test of lines 148-150 on normalised records. -/
def sameTriple (a b : Rpt) : Bool :=
  decide (a.rx = b.rx ∧ a.tx = b.tx ∧ a.callsign = b.callsign)

/-- Dedup-and-annotate step (lines 148-156) for a record that passed the
filters and was normalised. -/
def dedupStep (st : SelSt) (r : Rpt) : SelSt :=
  if st.1.any (fun p => sameTriple p.1 r) then st
  else
    let c := st.2 r.callsign + 1
    (st.1 ++ [(r, c)], fun x => if x = r.callsign then c else st.2 x)

/-- One iteration of the `filter_list` loop; `none` models an uncaught
exception in callsign normalisation. -/
def selStep (cfg : Cfg) (st : SelSt) (r : Rpt) : Option SelSt :=
  if passes cfg r then
    match normCallsign r.callsign r.id with
    | none => none
    | some cs => some (dedupStep st { r with callsign := cs })
  else some st

/-- The whole of `filter_list`: sort by `(callsign, int(id))`, then filter,
normalise, dedup and annotate `turn`.  `none` means the run raised. -/
def filterListM (cfg : Cfg) (raw : List Rpt) : Option (List (Rpt × Nat)) :=
  ((sortBy keyLt raw).foldlM (selStep cfg) (([], fun _ => 0) : SelSt)).map Prod.fst

/-- The records that reach the dedup step, in processing order, with
normalised callsigns (failures dropped; coincides with the processed
sequence whenever `filterListM` returns). -/
def candidateSeq (cfg : Cfg) (raw : List Rpt) : List Rpt :=
  (sortBy keyLt raw).filterMap (fun r =>
    if passes cfg r then (normCallsign r.callsign r.id).map (fun cs => { r with callsign := cs })
    else none)

/-- Pure dedup-and-annotate over an already filtered, normalised sequence. -/
def dedupAnnotate (l : List Rpt) : List (Rpt × Nat) :=
  (l.foldl dedupStep (([], fun _ => 0) : SelSt)).1

/-! ### ZoneNamer (`format_channel`, lines 199-220) -/

/-- `item['city'].split(',')[0].strip()`. -/
def cityOf (cityField : List Char) : List Char :=
  pyStrip (beforeComma cityField)

/-- The 3-character city abbreviation of `format_channel`. -/
def cityAbbrOf (cityField : List Char) : List Char :=
  let c := cityOf cityField
  if 3 ≤ c.length then (c.take 3).map Char.toUpper
  else ((c ++ ['X', 'X', 'X']).take 3).map Char.toUpper

/-- `" TS{slot}"`. -/
def tsSuffix (s : Nat) : List Char :=
  [' ', 'T', 'S'] ++ decRepr s

/-- The standard-mode channel alias, truncating the callsign when
`"{callsign}.{abbr} TS{slot}"` exceeds 16 characters. -/
def chAlias (callsign cityField : List Char) (s : Nat) : List Char :=
  let abbr := cityAbbrOf cityField
  let base := callsign ++ ['.'] ++ abbr
  let ts := tsSuffix s
  if 16 < (base ++ ts).length then
    callsign.take (16 - (['.'] ++ abbr ++ ts).length) ++ ['.'] ++ abbr ++ ts
  else base ++ ts

/-- The part of the alias before the `" TS{slot}"` suffix (identical for the
two slots, since both suffixes have four characters). -/
def aliasStem (callsign cityField : List Char) : List Char :=
  let abbr := cityAbbrOf cityField
  if 16 < (callsign ++ ['.'] ++ abbr).length + 4 then
    callsign.take (16 - (['.'] ++ abbr).length - 4) ++ ['.'] ++ abbr
  else callsign ++ ['.'] ++ abbr

/-! ### StandardPartitioner and the channels table -/

/-- One element of the global `output_list`: `[name, tx, rx, colorcode,
city, last_seen, url]` (the frequencies are swapped for the radio's
perspective, so `f1` holds the repeater's `tx`). -/
structure OutEntry where
  name : List Char
  f1 : List Char
  f2 : List Char
  cc : List Char
  city : List Char
  lastSeen : List Char
  url : List Char
deriving DecidableEq

def repeaterUrl (id : IdVal) : List Char :=
  ("https://brandmeister.network/?page=repeater&id=").data ++ idStr id

/-- `format_channel`: two entries (timeslots 1 and 2) per repeater. -/
def formatChannel (item : Rpt) : List OutEntry :=
  [ { name := chAlias item.callsign item.city 1, f1 := item.tx, f2 := item.rx,
      cc := item.colorcode, city := item.city, lastSeen := item.lastSeen,
      url := repeaterUrl item.id },
    { name := chAlias item.callsign item.city 2, f1 := item.tx, f2 := item.rx,
      cc := item.colorcode, city := item.city, lastSeen := item.lastSeen,
      url := repeaterUrl item.id } ]

/-- `[lst[i:i+c] for i in range(0, len(lst), c)]`; the fuel makes the
definition structural, and any `fuel ≥ l.length` gives the chunks (the
program always calls this with a positive capacity). -/
def chunksAux (c : Nat) : Nat → List α → List (List α)
  | 0, _ => []
  | _ + 1, [] => []
  | fuel + 1, x :: t => (x :: t).take c :: chunksAux c fuel ((x :: t).drop c)

def chunksOf (c : Nat) (l : List α) : List (List α) :=
  chunksAux c l.length l

/-- The `output_list` left behind by standard-mode `process_channels`
(lines 406-426): the list is RESET for every chunk, so only the final
chunk's channels survive for `write_channels_csv`. -/
def stdOutputList (cap : Nat) (filtered : List Rpt) : List OutEntry :=
  (chunksOf cap filtered).foldl (fun _ chunk => (chunk.map formatChannel).flatten) []

/-- Standard-mode slot cell of `write_channels_csv` (lines 536-542):
re-derived from the display name. -/
def slotFromName (name : List Char) : List Char :=
  if pyIn ['T', 'S', '1'] name then ['1']
  else if pyIn ['T', 'S', '2'] name then ['2']
  else ['1']

/-- The claim-relevant cells of one `channels.csv` row (the remaining
columns are fixed vendor literals independent of the record). -/
structure ChannelRow where
  no : Nat
  name : List Char
  rxF : List Char
  txF : List Char
  contact : List Char
  contactId : List Char
  cc : List Char
  slot : List Char
deriving DecidableEq

/-- Python `enumerate(l, k)`. -/
def enumFrom (k : Nat) : List α → List (Nat × α)
  | [] => []
  | x :: t => (k, x) :: enumFrom (k + 1) t

/-- `write_channels_csv` in standard mode: one row per `output_list` entry,
numbered from 1, contact fixed to Simplex/99, slot from the name. -/
def chanRowsStd (cap : Nat) (filtered : List Rpt) : List ChannelRow :=
  (enumFrom 1 (stdOutputList cap filtered)).map (fun p =>
    { no := p.1, name := p.2.name, rxF := p.2.f1, txF := p.2.f2,
      contact := ("Simplex").data, contactId := ['9', '9'], cc := p.2.cc,
      slot := slotFromName p.2.name })

/-! ### Zones table -/

/-- The claim-relevant cells of one `zones.csv` row; `members`, `rxFs`,
`txFs` are kept as lists (the CSV pipe-joins them). -/
structure ZoneRow where
  no : Nat
  name : List Char
  members : List (List Char)
  rxFs : List (List Char)
  txFs : List (List Char)
  aChan : List Char
  hide : List Char
deriving DecidableEq

/-- Member channel names of a standard-mode zone chunk (lines 623-641),
recomputed with the same alias logic as the channels table. -/
def zoneMembersStd (chunk : List Rpt) : List (List Char) :=
  (chunk.map (fun item =>
    [chAlias item.callsign item.city 1, chAlias item.callsign item.city 2])).flatten

def zoneRxFsStd (chunk : List Rpt) : List (List Char) :=
  (chunk.map (fun item => [item.tx, item.tx])).flatten

def zoneTxFsStd (chunk : List Rpt) : List (List Char) :=
  (chunk.map (fun item => [item.rx, item.rx])).flatten

/-- Zone name rule of lines 612-616 (`k` is the 1-based chunk number). -/
def zoneNameStd (base : List Char) (total k : Nat) : List Char :=
  if total = 1 then base else base ++ [' ', '#'] ++ decRepr k

/-- `write_zones_csv` standard branch (lines 608-648). -/
def zonesStdRows (base : List Char) (cap : Nat) (filtered : List Rpt) : List ZoneRow :=
  let chunks := chunksOf cap filtered
  (enumFrom 1 chunks).map (fun p =>
    let names := zoneMembersStd p.2
    { no := p.1, name := zoneNameStd base chunks.length p.1,
      members := names, rxFs := zoneRxFsStd p.2, txFs := zoneTxFsStd p.2,
      aChan := names.head?.getD [], hide := ['0'] })

/-! ### TalkgroupEngine -/

/-- One element of the per-repeater talkgroup response; the `talkgroup` key
may be missing and `slot` may be null. -/
structure TgEntry where
  talkgroup : Option Nat
  slot : Option Nat

/-- `get_talkgroup_channels`: keep entries having both keys. -/
def tgChannelsOf (look : IdVal → List TgEntry) (id : IdVal) : List (Nat × Nat) :=
  (look id).filterMap (fun e =>
    match e.talkgroup, e.slot with
    | some t, some s => some (t, s)
    | _, _ => none)

/-- All talkgroup ids referenced by the channel records of a run (one
reference per generated ChannelRecord). -/
def refIds (look : IdVal → List TgEntry) (filtered : List Rpt) : List Nat :=
  (filtered.map (fun r => (tgChannelsOf look r.id).map Prod.fst)).flatten

/-- `format_talkgroup_channel`: the entry keeps the raw callsign and appends
`" TG{tg}"` to the url; the slot is not stored. -/
def tgChanEntry (item : Rpt) (tg : Nat) : OutEntry :=
  { name := item.callsign, f1 := item.tx, f2 := item.rx, cc := item.colorcode,
    city := item.city, lastSeen := item.lastSeen,
    url := repeaterUrl item.id ++ [' ', 'T', 'G'] ++ decRepr tg }

/-- Talkgroup-mode `output_list` (second pass of `process_channels`). -/
def tgOutputList (look : IdVal → List TgEntry) (filtered : List Rpt) : List OutEntry :=
  (filtered.map (fun item =>
    (tgChannelsOf look item.id).map (fun p => tgChanEntry item p.1))).flatten

/-- Column B (`Radio ID`) of a talkgroups.csv row when present and truthy. -/
def rowRadioCell (row : List (List Char)) : Option (List Char) :=
  match row.get? 1 with
  | some s => if s.isEmpty then none else some s
  | none => none

/-- `existing_tg_ids` (lines 314-317): Radio IDs of all rows but the first. -/
def existingIds (rows : List (List (List Char))) : List (List Char) :=
  (rows.drop 1).filterMap rowRadioCell

/-- Radio IDs of the data rows (below the fixed 2-row header). -/
def dataIds (rows : List (List (List Char))) : List (List Char) :=
  (rows.drop 2).filterMap rowRadioCell

/-- `sorted(unique_talkgroups)`: the distinct referenced ids, ascending. -/
def sortedUniqueTGs (look : IdVal → List TgEntry) (filtered : List Rpt) : List Nat :=
  sortBy (fun a b : Nat => decide (a < b)) (refIds look filtered).dedup

/-- `''.flatten(c for c in str(tg_id) if c.isdigit())`. -/
def numericExtract (tg : Nat) : List Char :=
  (decRepr tg).filter isDigitM

/-- The ids that get a new talkgroups.csv row (line 321-324 condition). -/
def newTGIds (look : IdVal → List TgEntry) (filtered : List Rpt)
    (rows : List (List (List Char))) : List Nat :=
  (sortedUniqueTGs look filtered).filter (fun t =>
    decide (numericExtract t ≠ [] ∧ numericExtract t ∉ existingIds rows))

/-- Talkgroup display name: BrandMeister lookup (rstripped) with the numeric
id as fallback; `none` covers both a missing name and a lookup error. -/
def tgName (nameLook : List Char → Option (List Char)) (nid : List Char) : List Char :=
  match nameLook nid with
  | some nm => pyRstrip nm
  | none => nid

/-- The appended rows `[No., Radio ID, Name, 'Group Call', 'None']`
(line 344-346); `rowsLen` is `len(rows)` of the pre-existing table. -/
def newTGRows (nameLook : List Char → Option (List Char)) (rowsLen : Nat)
    (ids : List Nat) : List (List (List Char)) :=
  (enumFrom 0 ids).map (fun p =>
    [decRepr (rowsLen + p.1), numericExtract p.2, tgName nameLook (numericExtract p.2),
     ("Group Call").data, ("None").data])

/-- The talkgroups.csv contents written back (lines 348-359): header rows,
then the pre-existing entries, then the new unique entries. -/
def emittedTGRows (nameLook : List Char → Option (List Char))
    (look : IdVal → List TgEntry) (rows : List (List (List Char)))
    (filtered : List Rpt) : List (List (List Char)) :=
  let newRows := newTGRows nameLook rows.length (newTGIds look filtered rows)
  if (rows.take 2).length = 1 then rows.take 2 ++ rows.drop 1 ++ newRows
  else rows.take 2 ++ rows.drop 2 ++ newRows

/-! ### Talkgroup-mode zones -/

/-- The zone name actually written in talkgroup mode (line 580):
`f"{callsign}_{city.replace(' ', '_')}"` on the stripped before-comma city. -/
def tgZoneNameOf (item : Rpt) : List Char :=
  item.callsign ++ ['_'] ++ pyReplaceChar ' ' '_' (cityOf item.city)

/-- The dead zone-alias computation of `process_channels` (lines 383-393),
the formula the spec documents as `zoneAlias(callsign, city)`. -/
def zoneAliasTG (callsign city : List Char) : List Char :=
  (if 16 ≤ callsign.length + 1 then callsign.take 16
   else callsign ++ ['_'] ++ (pyDropSpaces city).take (15 - callsign.length)).take 16

/-- One talkgroup-mode zone row (lines 572-605): members are read back from
the written channels table by frequency-pair match. -/
def zoneRowTG (channelRows : List ChannelRow) (num : Nat) (item : Rpt) : ZoneRow :=
  let sel := channelRows.filter (fun row => decide (row.rxF = item.tx ∧ row.txF = item.rx))
  let names := sel.map (fun row => row.name)
  { no := num, name := (tgZoneNameOf item).take 16, members := names,
    rxFs := sel.map (fun _ => item.tx), txFs := sel.map (fun _ => item.rx),
    aChan := names.head?.getD [], hide := ['0'] }

/-- `write_zones_csv` talkgroup branch: one zone per repeater with at least
one talkgroup pair, numbered from 1. -/
def zonesTGRows (look : IdVal → List TgEntry) (channelRows : List ChannelRow)
    (filtered : List Rpt) : List ZoneRow :=
  (enumFrom 1 (filtered.filter (fun r => !(tgChannelsOf look r.id).isEmpty))).map
    (fun p => zoneRowTG channelRows p.1 p.2)

/-! ### Selection invariant vocabulary -/

/-- The dedup key `(rx, tx, normalized callsign)` of a record. -/
def tripleOf (r : Rpt) : List Char × List Char × List Char :=
  (r.rx, r.tx, r.callsign)

/-- Number of retained records carrying callsign `cs`. -/
def csCount (out : List (Rpt × Nat)) (cs : List Char) : Nat :=
  (out.filter (fun p => decide (p.1.callsign = cs))).length

/-- The `turn` annotations of the retained records with callsign `cs`, in
retention order. -/
def turnsOf (out : List (Rpt × Nat)) (cs : List Char) : List Nat :=
  (out.filter (fun p => decide (p.1.callsign = cs))).map (fun p => p.2)

/-- `[1, 2, ..., k]`. -/
def iota1 (k : Nat) : List Nat :=
  (List.range k).map (fun i => i + 1)

/-! ### Concrete instances used by witnesses and counterexamples -/

/-- A permissive configuration: band `both`, mcc mode with the empty prefix
(matches every id), no power / six-digit / callsign filters. -/
def cfg0 : Cfg :=
  { band := .both, stype := .mcc, mcc := .one [], geoOk := fun _ => true,
    pep := none, six := false, csFilter := none }

/-- Repeater-record builder for concrete examples. -/
def mkR (id : Nat) (cs rx tx city : String) : Rpt :=
  { id := .num id, callsign := cs.data, rx := rx.data, tx := tx.data,
    colorcode := ['1'], city := city.data, pep := some ['5', '0'], lastSeen := [] }

def rA : Rpt := mkR 1 "K1AAA" "146.000" "146.600" "Boston, MA"
def rB : Rpt := mkR 2 "K2BBB" "146.100" "146.700" "Albany"
def rC : Rpt := mkR 3 "K3CCC" "146.200" "146.800" "Chicago"
/-- Same `(rx, tx, callsign)` triple as `rA`, larger id. -/
def rDup : Rpt := mkR 4 "K1AAA" "146.000" "146.600" "Springfield"
/-- A callsign containing the substring `TS1`. -/
def rTs : Rpt := mkR 5 "KTS1AB" "438.000" "430.600" "Boston, MA"
/-- Whitespace-only (nonempty) callsign: `.split()[0]` raises IndexError. -/
def rWs : Rpt := { mkR 6 "" "146.300" "146.900" "Essen" with callsign := [' '] }
/-- Empty callsign with a numeric id: the callsign is replaced by the `int`
and `.split()` raises AttributeError. -/
def rEmptyNum : Rpt := mkR 123456 "" "146.400" "147.000" "Hamm"
/-- Repeater in a two-word city, for the talkgroup-mode zone name. -/
def rNY : Rpt := mkR 7 "K1AAA" "438.500" "431.100" "New York, NY"
/-- Same callsign as `rA` on a different frequency pair (kept, turn 2). -/
def rA2 : Rpt := mkR 8 "K1AAA" "146.500" "147.100" "Lowell"

/-- Talkgroup lookup collaborator for examples: repeater 7 carries talkgroup
91 on slot 2 and talkgroup 9 on slot 1. -/
def look0 : IdVal → List TgEntry := fun id =>
  if id = .num 7 then [⟨some 91, some 2⟩, ⟨some 9, some 1⟩] else []

/-- Name lookup collaborator that never finds a name. -/
def nameLook0 : List Char → Option (List Char) := fun _ => none

/-- A pre-supplied talkgroups table: two header rows, one data row with
Radio ID 8. -/
def rows0 : List (List (List Char)) :=
  [[("No.").data, ("Radio ID").data, ("Name").data, ("Call Type").data, ("Call Alert").data],
   [[], ("Radio ID").data],
   [['3'], ['8'], ("Eight").data, ("Group Call").data, ("None").data]]

/-! ### Basic facts about the decimal representation -/

theorem digitCharM_val {k : Nat} (h : k < 10) : (digitCharM k).toNat - 48 = k := by
  interval_cases k <;> rfl

theorem digitCharM_isDigit {k : Nat} (h : k < 10) : isDigitM (digitCharM k) = true := by
  interval_cases k <;> rfl

theorem parseRevD_digitsRevAux : ∀ fuel n, n ≤ fuel → parseRevD (digitsRevAux fuel n) = n := by
  intro fuel
  induction fuel with
  | zero => intro n h; interval_cases n; rfl
  | succ f ih =>
    intro n h
    by_cases h0 : n = 0
    · subst h0; simp [digitsRevAux, parseRevD]
    · have hdiv : n / 10 ≤ f := by
        have : n / 10 < n := Nat.div_lt_self (Nat.pos_of_ne_zero h0) (by norm_num)
        omega
      simp only [digitsRevAux, h0, if_false, parseRevD]
      rw [ih _ hdiv, digitCharM_val (Nat.mod_lt n (by norm_num))]
      omega

theorem digitsRevAux_all_digits : ∀ fuel n, ∀ c ∈ digitsRevAux fuel n, isDigitM c = true := by
  intro fuel
  induction fuel with
  | zero => intro n c hc; simp [digitsRevAux] at hc
  | succ f ih =>
    intro n c hc
    by_cases h0 : n = 0
    · subst h0; simp [digitsRevAux] at hc
    · simp only [digitsRevAux, h0, if_false, List.mem_cons] at hc
      rcases hc with h | h
      · subst h; exact digitCharM_isDigit (Nat.mod_lt n (by norm_num))
      · exact ih _ c h

theorem decRepr_all_digits (n : Nat) : ∀ c ∈ decRepr n, isDigitM c = true := by
  intro c hc
  by_cases h0 : n = 0
  · subst h0; simp [decRepr] at hc; subst hc; rfl
  · simp only [decRepr, h0, if_false, List.mem_reverse] at hc
    exact digitsRevAux_all_digits n n c hc

theorem decRepr_ne_nil (n : Nat) : decRepr n ≠ [] := by
  by_cases h0 : n = 0
  · subst h0; simp [decRepr]
  · simp only [decRepr, h0, if_false]
    intro h
    have := parseRevD_digitsRevAux n n (Nat.le_refl n)
    rw [List.reverse_eq_nil_iff] at h
    rw [h] at this
    simp [parseRevD] at this
    omega

/-- Decimal value reader inverse to `decRepr`. -/
def parseDec (s : List Char) : Nat := parseRevD s.reverse

theorem parseDec_decRepr (n : Nat) : parseDec (decRepr n) = n := by
  by_cases h0 : n = 0
  · subst h0; rfl
  · simp only [decRepr, h0, if_false, parseDec, List.reverse_reverse]
    exact parseRevD_digitsRevAux n n (Nat.le_refl n)

theorem decRepr_inj {a b : Nat} (h : decRepr a = decRepr b) : a = b := by
  have := congrArg parseDec h
  rwa [parseDec_decRepr, parseDec_decRepr] at this

theorem decRepr_filter_digits (n : Nat) : (decRepr n).filter isDigitM = decRepr n :=
  List.filter_eq_self.mpr (decRepr_all_digits n)


/-! ### ZoneNamer lemmas -/

theorem decRepr_single {s : Nat} (h : s < 10) : decRepr s = [digitCharM s] := by
  interval_cases s <;> rfl

theorem cityAbbrOf_length (c : List Char) : (cityAbbrOf c).length = 3 := by
  unfold cityAbbrOf
  by_cases h : 3 ≤ (cityOf c).length
  · simp [h, List.length_take]
  · simp [h, List.length_take]

theorem tsSuffix_length {s : Nat} (h : s < 10) : (tsSuffix s).length = 4 := by
  simp [tsSuffix, decRepr_single h]

theorem chAlias_short {callsign cityField : List Char} {s : Nat}
    (h : (callsign ++ ['.'] ++ cityAbbrOf cityField ++ tsSuffix s).length ≤ 16) :
    chAlias callsign cityField s = callsign ++ ['.'] ++ cityAbbrOf cityField ++ tsSuffix s := by
  unfold chAlias
  have hc : ¬ 16 < ((callsign ++ ['.'] ++ cityAbbrOf cityField) ++ tsSuffix s).length := by
    simp only [List.length_append] at h ⊢
    omega
  simp only [hc, if_false]

theorem chAlias_long {callsign cityField : List Char} {s : Nat} (hs : s < 10)
    (h : 16 < (callsign ++ ['.'] ++ cityAbbrOf cityField ++ tsSuffix s).length) :
    chAlias callsign cityField s =
      callsign.take 8 ++ ['.'] ++ cityAbbrOf cityField ++ tsSuffix s := by
  unfold chAlias
  have hc : 16 < ((callsign ++ ['.'] ++ cityAbbrOf cityField) ++ tsSuffix s).length := by
    simp only [List.length_append] at h ⊢
    omega
  simp only [hc, if_true]
  have hlen : (['.'] ++ cityAbbrOf cityField ++ tsSuffix s).length = 8 := by
    simp [List.length_append, cityAbbrOf_length, tsSuffix_length hs]
  rw [hlen]

theorem chAlias_length_le {callsign cityField : List Char} {s : Nat} (hs : s < 10) :
    (chAlias callsign cityField s).length ≤ 16 := by
  by_cases h : (callsign ++ ['.'] ++ cityAbbrOf cityField ++ tsSuffix s).length ≤ 16
  · rw [chAlias_short h]
    exact h
  · push_neg at h
    rw [chAlias_long hs h]
    simp only [List.length_append, List.length_take, cityAbbrOf_length,
      tsSuffix_length hs, List.length_cons, List.length_nil]
    omega

theorem foldl_const_last {β γ : Type} (g : β → γ) (init : γ) :
    ∀ l : List β, l.foldl (fun _ c => g c) init = (l.getLast?.map g).getD init := by
  intro l
  induction l generalizing init with
  | nil => rfl
  | cons x t ih =>
    cases t with
    | nil => rfl
    | cons y u => simpa using ih (g x)

theorem stdOutputList_mem_alias {cap : Nat} {filtered : List Rpt} {e : OutEntry}
    (h : e ∈ stdOutputList cap filtered) :
    ∃ (item : Rpt) (s : Nat), (s = 1 ∨ s = 2) ∧ e.name = chAlias item.callsign item.city s := by
  unfold stdOutputList at h
  rw [foldl_const_last] at h
  cases hl : (chunksOf cap filtered).getLast? with
  | none => rw [hl] at h; simp at h
  | some chunk =>
    rw [hl] at h
    have h2 : e ∈ (chunk.map formatChannel).flatten := h
    rw [List.mem_flatten] at h2
    obtain ⟨l, hml, hmem⟩ := h2
    rw [List.mem_map] at hml
    obtain ⟨item, _, rfl⟩ := hml
    simp only [formatChannel, List.mem_cons, List.mem_singleton] at hmem
    rcases hmem with rfl | rfl | hF
    · exact ⟨item, 1, Or.inl rfl, rfl⟩
    · exact ⟨item, 2, Or.inr rfl, rfl⟩
    · simp at hF

/-! ### Substring lemmas for the slot column -/

theorem pyIn_append_right {p t : List Char} (l : List Char) (h : pyIn p t = true) :
    pyIn p (l ++ t) = true := by
  induction l with
  | nil => simpa using h
  | cons c l ih => simp [pyIn, ih]

theorem isPrefixOf_append_longer {α : Type} [BEq α] (p : List α) :
    ∀ (t sfx : List α), p.length ≤ t.length → p.isPrefixOf (t ++ sfx) = p.isPrefixOf t := by
  induction p with
  | nil => intro t sfx _; simp [List.isPrefixOf]
  | cons a as ih =>
    intro t sfx h
    cases t with
    | nil => simp at h
    | cons b bs =>
      simp only [List.cons_append, List.isPrefixOf, List.append_eq]
      rw [ih bs sfx (by simpa using h)]

theorem pyIn_ts1_append_ts2 {l : List Char}
    (h : pyIn ['T', 'S', '1'] l = false) :
    pyIn ['T', 'S', '1'] (l ++ [' ', 'T', 'S', '2']) = false := by
  induction l with
  | nil => decide
  | cons c t ih =>
    rw [pyIn] at h
    rw [Bool.or_eq_false_iff] at h
    obtain ⟨hpre, hrest⟩ := h
    rw [List.cons_append, pyIn, Bool.or_eq_false_iff]
    refine ⟨?_, ih hrest⟩
    rcases t with _ | ⟨d, _ | ⟨e, t2⟩⟩
    · have h1 : (('S' : Char) == ' ') = false := rfl
      simp [List.isPrefixOf, h1]
    · have h1 : (('1' : Char) == ' ') = false := rfl
      simp [List.isPrefixOf, h1]
    · have hlen : (['T', 'S', '1'] : List Char).length ≤ (c :: d :: e :: t2).length := by
        simp
      have := isPrefixOf_append_longer (['T', 'S', '1'] : List Char)
        (c :: d :: e :: t2) [' ', 'T', 'S', '2'] hlen
      rw [show (c :: d :: e :: t2) ++ [' ', 'T', 'S', '2']
            = c :: ((d :: e :: t2) ++ [' ', 'T', 'S', '2']) from rfl] at this
      rw [this]
      exact hpre

theorem slotFromName_slot1 (stem : List Char) :
    slotFromName (stem ++ [' ', 'T', 'S', '1']) = ['1'] := by
  have h : pyIn ['T', 'S', '1'] (stem ++ [' ', 'T', 'S', '1']) = true :=
    pyIn_append_right stem (by decide)
  simp [slotFromName, h]

theorem slotFromName_slot2 {stem : List Char} (h : pyIn ['T', 'S', '1'] stem = false) :
    slotFromName (stem ++ [' ', 'T', 'S', '2']) = ['2'] := by
  have h1 := pyIn_ts1_append_ts2 h
  have h2 : pyIn ['T', 'S', '2'] (stem ++ [' ', 'T', 'S', '2']) = true :=
    pyIn_append_right stem (by decide)
  simp [slotFromName, h1, h2]

theorem chAlias_eq_stem (callsign cityField : List Char) {s : Nat} (hs : s = 1 ∨ s = 2) :
    chAlias callsign cityField s = aliasStem callsign cityField ++ [' ', 'T', 'S', digitCharM s] := by
  have hs10 : s < 10 := by rcases hs with rfl | rfl <;> norm_num
  have habbr := cityAbbrOf_length cityField
  have hts : tsSuffix s = [' ', 'T', 'S'] ++ [digitCharM s] := by
    rw [tsSuffix, decRepr_single hs10]
  simp only [chAlias, aliasStem]
  have hlen : ((callsign ++ ['.'] ++ cityAbbrOf cityField) ++ tsSuffix s).length
      = (callsign ++ ['.'] ++ cityAbbrOf cityField).length + 4 := by
    simp only [List.length_append, tsSuffix_length hs10]
  rw [hlen]
  by_cases hb : 16 < (callsign ++ ['.'] ++ cityAbbrOf cityField).length + 4
  · simp only [hb, if_true]
    have h8a : 16 - (['.'] ++ cityAbbrOf cityField ++ tsSuffix s).length = 8 := by
      simp only [List.length_append, tsSuffix_length hs10, habbr, List.length_cons,
        List.length_nil]
    have h8b : 16 - (['.'] ++ cityAbbrOf cityField).length - 4 = 8 := by
      simp only [List.length_append, habbr, List.length_cons, List.length_nil]
    rw [h8a, h8b, hts]
    simp [List.append_assoc]
  · simp only [hb, if_false]
    rw [hts]
    simp [List.append_assoc]

/-! ### Chunking lemmas -/

theorem chunksAux_fuel {α : Type} (c : Nat) (hc : 0 < c) :
    ∀ f1 f2 (l : List α), l.length ≤ f1 → l.length ≤ f2 → chunksAux c f1 l = chunksAux c f2 l := by
  intro f1
  induction f1 with
  | zero =>
    intro f2 l h1 _
    have hl : l = [] := List.eq_nil_of_length_eq_zero (Nat.le_zero.mp h1)
    subst hl
    cases f2 <;> rfl
  | succ f ih =>
    intro f2 l h1 h2
    cases l with
    | nil => cases f2 <;> rfl
    | cons x t =>
      cases f2 with
      | zero => simp at h2
      | succ f2 =>
        show (x :: t).take c :: chunksAux c f ((x :: t).drop c)
            = (x :: t).take c :: chunksAux c f2 ((x :: t).drop c)
        have hd : ((x :: t).drop c).length = t.length + 1 - c := by
          simp [List.length_drop]
        congr 1
        apply ih
        · rw [hd]; simp at h1; omega
        · rw [hd]; simp at h2; omega

theorem chunksOf_cons {α : Type} (c : Nat) (hc : 0 < c) (x : α) (t : List α) :
    chunksOf c (x :: t) = (x :: t).take c :: chunksOf c ((x :: t).drop c) := by
  have h1 : chunksOf c (x :: t)
      = (x :: t).take c :: chunksAux c t.length ((x :: t).drop c) := rfl
  rw [h1, chunksOf]
  congr 1
  apply chunksAux_fuel c hc
  · simp [List.length_drop]; omega
  · exact Nat.le_refl _

theorem chunksOf_length {α : Type} (c : Nat) (hc : 0 < c) :
    ∀ l : List α, (chunksOf c l).length = (l.length + c - 1) / c := by
  suffices h : ∀ n (l : List α), l.length = n → (chunksOf c l).length = (l.length + c - 1) / c by
    intro l; exact h l.length l rfl
  intro n
  induction n using Nat.strong_induction_on with
  | _ n ih =>
    intro l hl
    cases l with
    | nil =>
      show 0 = (0 + c - 1) / c
      rw [Nat.div_eq_of_lt (by omega)]
    | cons x t =>
      rw [chunksOf_cons c hc]
      simp only [List.length_cons]
      have hdl : ((x :: t).drop c).length = t.length + 1 - c := by
        simp [List.length_drop]
      have hlt : ((x :: t).drop c).length < n := by
        rw [hdl]; simp at hl; omega
      rw [ih _ hlt _ rfl, hdl]
      by_cases hnc : t.length + 1 ≤ c
      · have h0 : t.length + 1 - c = 0 := by omega
        rw [h0]
        have hR1 : (t.length + 1 + c - 1) / c = 1 := by
          have hlow : 1 ≤ (t.length + 1 + c - 1) / c :=
            (Nat.one_le_div_iff hc).mpr (by omega)
          have hhigh : (t.length + 1 + c - 1) / c < 2 :=
            (Nat.div_lt_iff_lt_mul hc).mpr (by omega)
          omega
        rw [hR1, Nat.div_eq_of_lt (by omega)]
      · push_neg at hnc
        have hL : t.length + 1 - c + c - 1 = t.length := by omega
        have hR : t.length + 1 + c - 1 = t.length + c := by omega
        rw [hL, hR, Nat.add_div_right _ hc]

theorem chunksOf_get?_full {α : Type} (c : Nat) (hc : 0 < c) :
    ∀ (l : List α) (i : Nat) (ch : List α), (chunksOf c l).get? i = some ch →
      i + 1 < (chunksOf c l).length → ch.length = c := by
  suffices h : ∀ n (l : List α), l.length = n → ∀ (i : Nat) (ch : List α),
      (chunksOf c l).get? i = some ch → i + 1 < (chunksOf c l).length → ch.length = c by
    intro l; exact h l.length l rfl
  intro n
  induction n using Nat.strong_induction_on with
  | _ n ih =>
    intro l hl i ch hget hlt
    cases l with
    | nil => simp [chunksOf, chunksAux] at hget
    | cons x t =>
      rw [chunksOf_cons c hc] at hget hlt
      cases i with
      | zero =>
        simp only [List.get?] at hget
        injection hget with hch
        subst hch
        simp only [List.length_cons] at hlt
        have hne : chunksOf c ((x :: t).drop c) ≠ [] := by
          intro hnil
          rw [hnil] at hlt
          simp at hlt
        have hdne : (x :: t).drop c ≠ [] := by
          intro hnil
          rw [hnil] at hne
          exact hne rfl
        have hlen : c < t.length + 1 := by
          by_contra hcon
          push_neg at hcon
          refine hdne (List.drop_eq_nil_of_le ?_)
          simp
          omega
        simp [List.length_take]
        omega
      | succ i =>
        simp only [List.get?] at hget
        simp only [List.length_cons] at hlt
        have hdlt : ((x :: t).drop c).length < n := by
          simp only [List.length_drop, List.length_cons]
          simp at hl
          omega
        exact ih _ hdlt _ rfl i ch hget (by omega)

/-! ### Enumeration lemmas -/

theorem enumFrom_length {α : Type} (k : Nat) (l : List α) :
    (enumFrom k l).length = l.length := by
  induction l generalizing k with
  | nil => rfl
  | cons x t ih => simp [enumFrom, ih]

theorem enumFrom_get? {α : Type} :
    ∀ (l : List α) (k i : Nat), (enumFrom k l).get? i = (l.get? i).map (fun x => (k + i, x)) := by
  intro l
  induction l with
  | nil => intro k i; simp [enumFrom]
  | cons x t ih =>
    intro k i
    cases i with
    | zero => simp [enumFrom]
    | succ i =>
      simp only [enumFrom, List.get?]
      rw [ih (k + 1) i]
      cases t.get? i <;> simp
      omega

theorem zoneMembersStd_length (chunk : List Rpt) :
    (zoneMembersStd chunk).length = 2 * chunk.length := by
  induction chunk with
  | nil => rfl
  | cons x t ih =>
    simp only [zoneMembersStd, List.map_cons, List.flatten_cons] at ih ⊢
    simp only [List.length_append, List.length_cons, List.length_nil, ih]
    omega

theorem zonesStdRows_get? (base : List Char) (c : Nat) (l : List Rpt) (i : Nat) :
    (zonesStdRows base c l).get? i = ((chunksOf c l).get? i).map (fun ch =>
      { no := 1 + i, name := zoneNameStd base (chunksOf c l).length (1 + i),
        members := zoneMembersStd ch, rxFs := zoneRxFsStd ch, txFs := zoneTxFsStd ch,
        aChan := (zoneMembersStd ch).head?.getD [], hide := ['0'] }) := by
  simp only [zonesStdRows]
  rw [List.get?_map, enumFrom_get?]
  cases (chunksOf c l).get? i <;> rfl

/-! ### Claim theorems: naming and partitioning -/

/-- Claim C4: the standard-mode channel alias equals
`"{callsign}.{cityAbbrev} TS{slot}"` when that fits in 16 characters and
otherwise truncates only the callsign (to 8 characters, since the suffix
occupies 8); Scenario E gives exactly the 16-character
`"VERYLONG.SPR TS1"`; and every emitted standard-mode display name is at
most 16 characters. -/
theorem claim_C4 :
    (∀ (callsign cityField : List Char) (s : Nat), s = 1 ∨ s = 2 →
      ((callsign ++ ['.'] ++ cityAbbrOf cityField ++ tsSuffix s).length ≤ 16 →
        chAlias callsign cityField s = callsign ++ ['.'] ++ cityAbbrOf cityField ++ tsSuffix s)
      ∧ (16 < (callsign ++ ['.'] ++ cityAbbrOf cityField ++ tsSuffix s).length →
        chAlias callsign cityField s
          = callsign.take 8 ++ ['.'] ++ cityAbbrOf cityField ++ tsSuffix s)
      ∧ (chAlias callsign cityField s).length ≤ 16)
    ∧ chAlias ("VERYLONGCALL1234").data ("Springfield").data 1 = ("VERYLONG.SPR TS1").data
    ∧ (chAlias ("VERYLONGCALL1234").data ("Springfield").data 1).length = 16
    ∧ ∀ (cap : Nat) (filtered : List Rpt) (e : OutEntry),
        e ∈ stdOutputList cap filtered → e.name.length ≤ 16 := by
  refine ⟨?_, by decide, by decide, ?_⟩
  · intro callsign cityField s hs
    have hs10 : s < 10 := by rcases hs with rfl | rfl <;> norm_num
    exact ⟨fun h => chAlias_short h, fun h => chAlias_long hs10 h, chAlias_length_le hs10⟩
  · intro cap filtered e he
    obtain ⟨item, s, hs, hname⟩ := stdOutputList_mem_alias he
    rw [hname]
    have hs10 : s < 10 := by rcases hs with rfl | rfl <;> norm_num
    exact chAlias_length_le hs10

/-- Witness for C4 at a concrete short callsign/city. -/
theorem claim_C4_witness :
    chAlias ("K1AAA").data ("Boston, MA").data 1
      = ("K1AAA").data ++ ['.'] ++ cityAbbrOf ("Boston, MA").data ++ tsSuffix 1 :=
  (claim_C4.1 ("K1AAA").data ("Boston, MA").data 1 (Or.inl rfl)).1 (by decide)

/-- Claim C1 (failing input): in standard mode with 3 selected repeaters and
capacity 2 the emitted channels table has only the final chunk's 2 rows
(numbered 1, 2), not the 6 rows (one per ChannelRecord) the claim requires,
because `process_channels` resets `output_list` for every chunk. -/
theorem claim_C1_failing :
    (chanRowsStd 2 [rA, rB, rC]).length = 2
    ∧ (chanRowsStd 2 [rA, rB, rC]).map (fun row => row.no) = [1, 2]
    ∧ (chanRowsStd 2 [rA, rB, rC]).length ≠ 2 * [rA, rB, rC].length := by
  decide

/-- Claim C3 (amended): the slot column of the standard-mode channels table
is re-derived from the display name (`'TS1'` tested first, then `'TS2'`,
default `'1'`); it agrees with the generating record's timeslot whenever the
alias stem before the `" TS{slot}"` suffix does not contain `"TS1"`. -/
theorem claim_C3_amended :
    (∀ (cap : Nat) (filtered : List Rpt) (row : ChannelRow),
        row ∈ chanRowsStd cap filtered → row.slot = slotFromName row.name)
    ∧ (∀ item : Rpt, pyIn ['T', 'S', '1'] (aliasStem item.callsign item.city) = false →
        slotFromName (chAlias item.callsign item.city 1) = decRepr 1
        ∧ slotFromName (chAlias item.callsign item.city 2) = decRepr 2) := by
  constructor
  · intro cap filtered row hrow
    unfold chanRowsStd at hrow
    rw [List.mem_map] at hrow
    obtain ⟨p, _, rfl⟩ := hrow
    rfl
  · intro item h
    constructor
    · rw [chAlias_eq_stem _ _ (Or.inl rfl)]
      exact slotFromName_slot1 _
    · rw [chAlias_eq_stem _ _ (Or.inr rfl)]
      exact slotFromName_slot2 h

/-- Witness for the amended C3 at a clean callsign. -/
theorem claim_C3_amended_witness :
    slotFromName (chAlias rA.callsign rA.city 1) = decRepr 1
    ∧ slotFromName (chAlias rA.callsign rA.city 2) = decRepr 2 :=
  claim_C3_amended.2 rA (by decide)

/-- Counterexample to C3 as stated: for the repeater with callsign
`"KTS1AB"`, the slot-2 channel row (row index 1) gets slot `'1'` from the
name scan although its generating timeslot is 2. -/
theorem claim_C3_cex :
    ((chanRowsStd 1 [rTs]).get? 1).map (fun row => row.slot) = some ['1']
    ∧ ((chanRowsStd 1 [rTs]).get? 1).map (fun row => row.name)
        = some (chAlias rTs.callsign rTs.city 2)
    ∧ (['1'] : List Char) ≠ decRepr 2 := by
  decide

/-- Claim C6: with positive capacity `c`, standard mode emits exactly
`ceil(n / c)` zone rows, numbered sequentially from 1; every zone but the
last has exactly `c` repeaters (2·c member channels); the zone name is the
base name when there is one chunk and `"{base} #{k}"` (1-based) otherwise. -/
theorem claim_C6 (base : List Char) (c : Nat) (l : List Rpt) (hc : 0 < c) :
    (zonesStdRows base c l).length = (l.length + c - 1) / c
    ∧ ∀ (i : Nat) (z : ZoneRow), (zonesStdRows base c l).get? i = some z →
        z.no = i + 1
        ∧ z.name = (if (zonesStdRows base c l).length = 1 then base
                    else base ++ [' ', '#'] ++ decRepr (i + 1))
        ∧ (i + 1 < (zonesStdRows base c l).length → z.members.length = 2 * c) := by
  have hlenrows : (zonesStdRows base c l).length = (chunksOf c l).length := by
    simp only [zonesStdRows, List.length_map, enumFrom_length]
  constructor
  · rw [hlenrows, chunksOf_length c hc]
  · intro i z hz
    rw [zonesStdRows_get?] at hz
    cases hch : (chunksOf c l).get? i with
    | none => rw [hch] at hz; simp at hz
    | some ch =>
      rw [hch] at hz
      have hz2 := Option.some.inj hz
      subst hz2
      refine ⟨?_, ?_, ?_⟩
      · show 1 + i = i + 1
        omega
      · show zoneNameStd base (chunksOf c l).length (1 + i) = _
        rw [hlenrows, zoneNameStd, Nat.add_comm 1 i]
      · intro hi
        rw [hlenrows] at hi
        show (zoneMembersStd ch).length = 2 * c
        rw [zoneMembersStd_length, chunksOf_get?_full c hc l i ch hch hi]

/-- Witness for C6 on three repeaters with capacity 2. -/
theorem claim_C6_witness :
    (zonesStdRows ("Europe").data 2 [rA, rB, rC]).length = 2 := by
  have h := (claim_C6 ("Europe").data 2 [rA, rB, rC] (by decide)).1
  simpa using h

/-! ### Power-filter lemmas (claim C7) -/

theorem char_eq_of_toNat_eq {a b : Char} (h : a.toNat = b.toNat) : a = b :=
  Char.eq_of_val_eq (congrArg UInt32.mk (BitVec.eq_of_toNat_eq h))

theorem isDigitM_iff {c : Char} : isDigitM c = true ↔ 48 ≤ c.toNat ∧ c.toNat ≤ 57 := by
  simp [isDigitM]

theorem parseFold_le (t : List Char) :
    ∀ a : Nat, a ≤ t.foldl (fun a c => 10 * a + (c.toNat - 48)) a := by
  induction t with
  | nil => intro a; exact Nat.le_refl a
  | cons c t ih =>
    intro a
    calc a ≤ 10 * a + (c.toNat - 48) := by omega
    _ ≤ t.foldl (fun a c => 10 * a + (c.toNat - 48)) (10 * a + (c.toNat - 48)) := ih _

theorem parseNatL_cons (c : Char) (t : List Char) :
    parseNatL (c :: t) = t.foldl (fun a c => 10 * a + (c.toNat - 48)) (c.toNat - 48) := by
  simp [parseNatL]

theorem parseNatL_pos {s : List Char} (hd : pyIsDigit s = true)
    (hcanon : s.head? = some '0' → s = ['0']) (hne : s ≠ ['0']) :
    0 < parseNatL s := by
  cases s with
  | nil => simp [pyIsDigit] at hd
  | cons c t =>
    have hc0 : c ≠ '0' := by
      intro heq
      subst heq
      exact hne (hcanon rfl)
    have hdig : isDigitM c = true := by
      simp only [pyIsDigit, Bool.and_eq_true, List.all_cons] at hd
      exact hd.2.1
    rw [isDigitM_iff] at hdig
    have h48 : c.toNat ≠ 48 := by
      intro h
      exact hc0 (char_eq_of_toNat_eq (h.trans rfl))
    rw [parseNatL_cons]
    calc 0 < c.toNat - 48 := by omega
    _ ≤ _ := parseFold_le t _

theorem parseNatL_zero_iff {s : List Char} (hd : pyIsDigit s = true)
    (hcanon : s.head? = some '0' → s = ['0']) :
    parseNatL s = 0 ↔ s = ['0'] := by
  constructor
  · intro h0
    by_contra hne
    exact absurd h0 (Nat.pos_iff_ne_zero.mp (parseNatL_pos hd hcanon hne))
  · intro h
    subst h
    rfl

/-! ### Claim C7 and claim C10 -/

/-- Claim C7: with the power flag absent no record is skipped on power
grounds; with the bare flag a record is skipped iff its power string is
non-numeric (including a null entry) or has value zero; with a positive
threshold it is skipped iff the power is undefined, zero, or below the
threshold.  `hcanon` says the power string has no leading zeros (the
canonical `str(int)`-style form the data carries). -/
theorem claim_C7 (pepf : Option (List Char))
    (hcanon : (pepStr pepf).head? = some '0' → pepStr pepf = ['0']) :
    pepSkip none pepf = false
    ∧ (pepSkip (some ['0']) pepf = true ↔
        (pyIsDigit (pepStr pepf) = false ∨ parseNatL (pepStr pepf) = 0))
    ∧ (∀ t : List Char, pyIsDigit t = true → 0 < parseNatL t →
        (pepSkip (some t) pepf = true ↔
          (pyIsDigit (pepStr pepf) = false ∨ parseNatL (pepStr pepf) = 0
           ∨ parseNatL (pepStr pepf) < parseNatL t))) := by
  refine ⟨rfl, ?_, ?_⟩
  · show (if (['0'] : List Char).isEmpty = true then false
      else if pyIsDigit (pepStr pepf) = false ∨ pepStr pepf = ['0'] then true
      else if (['0'] : List Char) ≠ ['0'] ∧ parseNatL (pepStr pepf) < parseNatL ['0']
        then true else false) = true ↔ _
    by_cases hdig : pyIsDigit (pepStr pepf) = false
    · simp [hdig]
    · rw [Bool.not_eq_false] at hdig
      have h00 : parseNatL (['0'] : List Char) = 0 := rfl
      by_cases hz : pepStr pepf = ['0']
      · simp [hz, hdig, h00]
      · have hnz : parseNatL (pepStr pepf) ≠ 0 := fun h0 =>
          hz ((parseNatL_zero_iff hdig hcanon).mp h0)
        simp [hz, hdig, hnz]
  · intro t hdt hpt
    have htne : t ≠ ['0'] := by
      intro h
      subst h
      simp [parseNatL] at hpt
    have htne2 : t.isEmpty = false := by
      cases t with
      | nil => simp [pyIsDigit] at hdt
      | cons c u => rfl
    show (if t.isEmpty = true then false
      else if pyIsDigit (pepStr pepf) = false ∨ pepStr pepf = ['0'] then true
      else if t ≠ ['0'] ∧ parseNatL (pepStr pepf) < parseNatL t
        then true else false) = true ↔ _
    rw [htne2]
    by_cases hdig : pyIsDigit (pepStr pepf) = false
    · simp [hdig]
    · rw [Bool.not_eq_false] at hdig
      have hz := parseNatL_zero_iff hdig hcanon
      by_cases hzero : parseNatL (pepStr pepf) = 0
      · have hps : pepStr pepf = ['0'] := hz.mp hzero
        have h00 : parseNatL (['0'] : List Char) = 0 := rfl
        simp [hps, hdig, h00]
      · have hne0 : pepStr pepf ≠ ['0'] := fun h => hzero (hz.mpr h)
        by_cases hlt : parseNatL (pepStr pepf) < parseNatL t
        · simp [hdig, hne0, hzero, hlt, htne]
        · simp [hdig, hne0, hzero, hlt]

/-- Witness for C7 with power string "50" and threshold "60". -/
theorem claim_C7_witness :
    pepSkip none (some ['5', '0']) = false
    ∧ (pepSkip (some ['0']) (some ['5', '0']) = true ↔
        (pyIsDigit (pepStr (some ['5', '0'])) = false
         ∨ parseNatL (pepStr (some ['5', '0'])) = 0))
    ∧ (pepSkip (some ['6', '0']) (some ['5', '0']) = true ↔
        (pyIsDigit (pepStr (some ['5', '0'])) = false
         ∨ parseNatL (pepStr (some ['5', '0'])) = 0
         ∨ parseNatL (pepStr (some ['5', '0'])) < parseNatL ['6', '0'])) := by
  have h := claim_C7 (some ['5', '0']) (by intro h; simp [pepStr] at h)
  exact ⟨h.1, h.2.1, h.2.2 ['6', '0'] (by decide) (by decide)⟩

/-- Claim C10: the normalisation step is not total.  A whitespace-only
(nonempty) callsign passes every filter of `cfg0` but `.split()[0]` finds no
token (IndexError), and an empty callsign with a numeric id passes the
filters but `.split()` is called on an `int` (AttributeError); in both cases
`filter_list` raises instead of returning, modelled by `none`. -/
theorem claim_C10 :
    (passes cfg0 rWs = true ∧ normCallsign rWs.callsign rWs.id = none
      ∧ filterListM cfg0 [rWs] = none)
    ∧ (passes cfg0 rEmptyNum = true ∧ normCallsign rEmptyNum.callsign rEmptyNum.id = none
      ∧ filterListM cfg0 [rEmptyNum] = none) := by
  decide

/-! ### Selection-fold invariants (claims C5 and C9) -/

theorem sameTriple_refl (a : Rpt) : sameTriple a a = true := by
  simp [sameTriple]

theorem sameTriple_iff {a b : Rpt} : sameTriple a b = true ↔ tripleOf a = tripleOf b := by
  simp [sameTriple, tripleOf, Prod.ext_iff]

theorem sameTriple_trans {a b c : Rpt} (h1 : sameTriple a b = true)
    (h2 : sameTriple b c = true) : sameTriple a c = true := by
  rw [sameTriple_iff] at h1 h2 ⊢
  exact h1.trans h2

theorem find?_append_some {α : Type} {f : α → Bool} {x : α} :
    ∀ {l : List α} (t : List α), l.find? f = some x → (l ++ t).find? f = some x := by
  intro l
  induction l with
  | nil => intro t h; simp [List.find?] at h
  | cons a l ih =>
    intro t h
    by_cases hf : f a
    · rw [List.find?_cons_of_pos _ hf] at h
      rw [List.cons_append, List.find?_cons_of_pos _ hf]
      exact h
    · rw [List.find?_cons_of_neg _ hf] at h
      rw [List.cons_append, List.find?_cons_of_neg _ hf]
      exact ih t h

theorem find?_append_none {α : Type} {f : α → Bool} :
    ∀ {l : List α} (t : List α), l.find? f = none → (l ++ t).find? f = t.find? f := by
  intro l
  induction l with
  | nil => intro t _; rfl
  | cons a l ih =>
    intro t h
    by_cases hf : f a
    · rw [List.find?_cons_of_pos _ hf] at h
      exact absurd h (by simp)
    · rw [List.find?_cons_of_neg _ hf] at h
      rw [List.cons_append, List.find?_cons_of_neg _ hf]
      exact ih t h

theorem iota1_succ (k : Nat) : iota1 (k + 1) = iota1 k ++ [k + 1] := by
  simp [iota1, List.range_succ]

theorem selFold_invariants (l : List Rpt) :
    (((l.foldl dedupStep (([], fun _ => 0) : SelSt)).1.map (fun p => tripleOf p.1)).Nodup)
    ∧ (∀ p ∈ (l.foldl dedupStep (([], fun _ => 0) : SelSt)).1,
        l.find? (fun c => sameTriple c p.1) = some p.1)
    ∧ (∀ c ∈ l, ∃ p ∈ (l.foldl dedupStep (([], fun _ => 0) : SelSt)).1,
        sameTriple p.1 c = true)
    ∧ (∀ cs, (l.foldl dedupStep (([], fun _ => 0) : SelSt)).2 cs
        = csCount (l.foldl dedupStep (([], fun _ => 0) : SelSt)).1 cs)
    ∧ (∀ cs, turnsOf (l.foldl dedupStep (([], fun _ => 0) : SelSt)).1 cs
        = iota1 (csCount (l.foldl dedupStep (([], fun _ => 0) : SelSt)).1 cs)) := by
  induction l using List.reverseRecOn with
  | nil =>
    refine ⟨by simp, by simp, by simp, fun cs => rfl, fun cs => rfl⟩
  | append_singleton l c ih =>
    obtain ⟨h1, h2, h3, h4, h5⟩ := ih
    rw [List.foldl_append]
    simp only [List.foldl_cons, List.foldl_nil]
    set st := l.foldl dedupStep (([], fun _ => 0) : SelSt) with hst
    show (((dedupStep st c).1.map (fun p => tripleOf p.1)).Nodup)
      ∧ (∀ p ∈ (dedupStep st c).1,
          (l ++ [c]).find? (fun d => sameTriple d p.1) = some p.1)
      ∧ (∀ d ∈ l ++ [c], ∃ p ∈ (dedupStep st c).1, sameTriple p.1 d = true)
      ∧ (∀ cs, (dedupStep st c).2 cs = csCount (dedupStep st c).1 cs)
      ∧ (∀ cs, turnsOf (dedupStep st c).1 cs = iota1 (csCount (dedupStep st c).1 cs))
    unfold dedupStep
    by_cases hdup : st.1.any (fun p => sameTriple p.1 c) = true
    · simp only [hdup, if_true]
      obtain ⟨p0, hp0mem, hp0⟩ := List.any_eq_true.mp hdup
      refine ⟨h1, ?_, ?_, h4, h5⟩
      · intro p hp
        exact find?_append_some [c] (h2 p hp)
      · intro d hd
        rcases List.mem_append.mp hd with hd | hd
        · exact h3 d hd
        · rw [List.mem_singleton] at hd
          subst hd
          exact ⟨p0, hp0mem, hp0⟩
    · simp only [hdup, if_false]
      have hnotrip : ∀ p ∈ st.1, sameTriple p.1 c = false := by
        intro p hp
        by_contra hcon
        rw [Bool.not_eq_false] at hcon
        exact hdup (List.any_eq_true.mpr ⟨p, hp, hcon⟩)
      have hfindl : l.find? (fun d => sameTriple d c) = none := by
        rw [List.find?_eq_none]
        intro d hd hdc
        obtain ⟨p, hpmem, hpd⟩ := h3 d hd
        have htr := sameTriple_trans hpd hdc
        rw [hnotrip p hpmem] at htr
        exact Bool.false_ne_true htr
      refine ⟨?_, ?_, ?_, ?_, ?_⟩
      · show ((st.1 ++ [(c, st.2 c.callsign + 1)]).map (fun p => tripleOf p.1)).Nodup
        rw [List.map_append, List.nodup_append]
        refine ⟨h1, by simp, ?_⟩
        intro a ha
        rw [List.mem_map] at ha
        obtain ⟨p, hpmem, rfl⟩ := ha
        simp only [List.map_cons, List.map_nil, List.mem_singleton]
        intro heq
        have htr : sameTriple p.1 c = true := sameTriple_iff.mpr heq
        rw [hnotrip p hpmem] at htr
        exact Bool.false_ne_true htr
      · intro p hp
        rcases List.mem_append.mp hp with hp | hp
        · exact find?_append_some [c] (h2 p hp)
        · rw [List.mem_singleton] at hp
          subst hp
          rw [find?_append_none [c] hfindl]
          simp [sameTriple_refl]
      · intro d hd
        rcases List.mem_append.mp hd with hd | hd
        · obtain ⟨p, hpmem, hpd⟩ := h3 d hd
          exact ⟨p, List.mem_append_left _ hpmem, hpd⟩
        · rw [List.mem_singleton] at hd
          refine ⟨(c, st.2 c.callsign + 1), List.mem_append_right _ (by simp), ?_⟩
          rw [hd]
          exact sameTriple_refl c
      · intro cs
        show (if cs = c.callsign then st.2 c.callsign + 1 else st.2 cs)
          = csCount (st.1 ++ [(c, st.2 c.callsign + 1)]) cs
        unfold csCount
        rw [List.filter_append]
        simp only [List.filter_cons, List.filter_nil, List.length_append]
        by_cases hcs : cs = c.callsign
        · subst hcs
          rw [if_pos rfl, if_pos (by simp)]
          have hh := h4 c.callsign
          unfold csCount at hh
          simp [hh]
        · rw [if_neg hcs, if_neg (by simp only [decide_eq_true_eq]; exact fun h => hcs h.symm)]
          have hh := h4 cs
          unfold csCount at hh
          simp [hh]
      · intro cs
        show turnsOf (st.1 ++ [(c, st.2 c.callsign + 1)]) cs
          = iota1 (csCount (st.1 ++ [(c, st.2 c.callsign + 1)]) cs)
        unfold turnsOf csCount
        rw [List.filter_append]
        simp only [List.filter_cons, List.filter_nil]
        by_cases hcs : c.callsign = cs
        · rw [if_pos (by simp only [decide_eq_true_eq]; exact hcs)]
          rw [List.map_append, List.length_append]
          have hth := h5 cs
          unfold turnsOf csCount at hth
          simp only [List.map_cons, List.map_nil, List.length_cons, List.length_nil]
          have hcc : st.2 c.callsign
              = (st.1.filter (fun p => decide (p.1.callsign = cs))).length := by
            rw [hcs, h4 cs]
            rfl
          rw [hth, hcc, iota1_succ]
        · rw [if_neg (by simp only [decide_eq_true_eq]; exact hcs)]
          simp only [List.append_nil]
          exact h5 cs

theorem foldlM_selStep_eq (cfg : Cfg) :
    ∀ (l : List Rpt) (st st' : SelSt),
      l.foldlM (selStep cfg) st = some st' →
      st' = (l.filterMap (fun r =>
        if passes cfg r then (normCallsign r.callsign r.id).map
          (fun cs => { r with callsign := cs }) else none)).foldl dedupStep st := by
  intro l
  induction l with
  | nil =>
    intro st st' h
    simp only [List.foldlM_nil] at h
    simp [← Option.some.inj h]
  | cons r t ih =>
    intro st st' h
    rw [List.foldlM_cons] at h
    unfold selStep at h
    rw [List.filterMap_cons]
    by_cases hp : passes cfg r
    · rw [if_pos hp] at h ⊢
      cases hn : normCallsign r.callsign r.id with
      | none => rw [hn] at h; simp at h
      | some cs =>
        rw [hn] at h
        have h2 : t.foldlM (selStep cfg) (dedupStep st { r with callsign := cs })
            = some st' := h
        simp only [Option.map_some', List.foldl_cons]
        exact ih (dedupStep st { r with callsign := cs }) st' h2
    · rw [if_neg hp] at h ⊢
      have h2 : t.foldlM (selStep cfg) st = some st' := h
      exact ih st st' h2

theorem filterListM_some_eq {cfg : Cfg} {raw : List Rpt} {out : List (Rpt × Nat)}
    (h : filterListM cfg raw = some out) :
    out = ((candidateSeq cfg raw).foldl dedupStep (([], fun _ => 0) : SelSt)).1 := by
  unfold filterListM at h
  cases hfold : (sortBy keyLt raw).foldlM (selStep cfg) (([], fun _ => 0) : SelSt) with
  | none => rw [hfold] at h; simp at h
  | some st' =>
    rw [hfold] at h
    have h2 : some st'.1 = some out := h
    have hbr := foldlM_selStep_eq cfg (sortBy keyLt raw) _ _ hfold
    have hcand : (sortBy keyLt raw).filterMap (fun r =>
        if passes cfg r then (normCallsign r.callsign r.id).map
          (fun cs => { r with callsign := cs }) else none) = candidateSeq cfg raw := rfl
    rw [hcand] at hbr
    rw [← Option.some.inj h2, hbr]

/-- Claim C5: when `filter_list` returns, no two retained records share the
`(rx, tx, normalized callsign)` triple, and each retained record is exactly
the first record carrying its triple among the filter-passing, normalised
records taken in `(callsign, int(id))` ascending sort order. -/
theorem claim_C5 (cfg : Cfg) (raw : List Rpt) (out : List (Rpt × Nat))
    (h : filterListM cfg raw = some out) :
    ((out.map (fun p => tripleOf p.1)).Nodup)
    ∧ ∀ p ∈ out, (candidateSeq cfg raw).find? (fun c => sameTriple c p.1) = some p.1 := by
  obtain ⟨i1, i2, _, _, _⟩ := selFold_invariants (candidateSeq cfg raw)
  rw [filterListM_some_eq h]
  exact ⟨i1, i2⟩

/-- Witness for C5: four raw records, one a duplicate triple of `rA`. -/
theorem claim_C5_witness :
    (([(rA, 1), (rA2, 2), (rB, 1)].map (fun p => tripleOf p.1)).Nodup)
    ∧ (candidateSeq cfg0 [rDup, rA2, rA, rB]).find?
        (fun c => sameTriple c (rA, 1).1) = some (rA, 1).1 := by
  have h := claim_C5 cfg0 [rDup, rA2, rA, rB] [(rA, 1), (rA2, 2), (rB, 1)] (by decide)
  exact ⟨h.1, h.2 (rA, 1) (by decide)⟩

/-- Claim C9: when `filter_list` returns, the `turn` annotations of the
retained records sharing any given normalised callsign form exactly the
sequence `1, 2, ..., k` in retention order. -/
theorem claim_C9 (cfg : Cfg) (raw : List Rpt) (out : List (Rpt × Nat))
    (h : filterListM cfg raw = some out) (cs : List Char) :
    turnsOf out cs = iota1 (csCount out cs) := by
  obtain ⟨_, _, _, _, i5⟩ := selFold_invariants (candidateSeq cfg raw)
  rw [filterListM_some_eq h]
  exact i5 cs

/-- Witness for C9: callsign `K1AAA` is retained twice, with turns `[1, 2]`. -/
theorem claim_C9_witness :
    turnsOf [(rA, 1), (rA2, 2), (rB, 1)] (("K1AAA").data)
      = iota1 (csCount [(rA, 1), (rA2, 2), (rB, 1)] (("K1AAA").data)) :=
  claim_C9 cfg0 [rDup, rA2, rA, rB] [(rA, 1), (rA2, 2), (rB, 1)] (by decide)
    (("K1AAA").data)

/-! ### Talkgroup-mode zone names (claim C2) -/

theorem enumFrom_map_snd_comp {α β : Type} (g : α → β) :
    ∀ (l : List α) (k : Nat), (enumFrom k l).map (fun p => g p.2) = l.map g := by
  intro l
  induction l with
  | nil => intro k; rfl
  | cons x t ih => intro k; simp [enumFrom, ih (k + 1)]

/-- Counterexample to C2 as stated: for callsign `K1AAA` in city
`"New York, NY"`, the zones table writes `"K1AAA_New_York"` (the filename
formula, spaces turned to underscores) while `zoneAlias` as the claim
describes it gives `"K1AAA_NewYork"` (spaces removed). -/
theorem claim_C2_cex :
    (zonesTGRows look0 [] [rNY]).map (fun z => z.name) = [("K1AAA_New_York").data]
    ∧ zoneAliasTG rNY.callsign (cityOf rNY.city) = ("K1AAA_NewYork").data
    ∧ ¬ ((zonesTGRows look0 [] [rNY]).map (fun z => z.name)
        = [zoneAliasTG rNY.callsign (cityOf rNY.city)]) := by
  decide

/-- Claim C2 (amended): in talkgroup mode the zone name written for each
repeater with at least one talkgroup pair is
`f"{callsign}_{city.replace(' ', '_')}"[:16]` on the stripped before-comma
city — not the `zoneAlias` formula, whose computation in `process_channels`
is dead code — and it is at most 16 characters. -/
theorem claim_C2_amended (look : IdVal → List TgEntry) (channelRows : List ChannelRow)
    (filtered : List Rpt) :
    (zonesTGRows look channelRows filtered).map (fun z => z.name)
      = (filtered.filter (fun r => !(tgChannelsOf look r.id).isEmpty)).map
          (fun r => (tgZoneNameOf r).take 16)
    ∧ ∀ z ∈ zonesTGRows look channelRows filtered, z.name.length ≤ 16 := by
  constructor
  · unfold zonesTGRows
    rw [List.map_map]
    exact enumFrom_map_snd_comp (fun r => (tgZoneNameOf r).take 16) _ 1
  · intro z hz
    unfold zonesTGRows at hz
    rw [List.mem_map] at hz
    obtain ⟨p, _, rfl⟩ := hz
    show ((tgZoneNameOf p.2).take 16).length ≤ 16
    simp [List.length_take]

/-- Witness for the amended C2 at the concrete repeater `rNY`. -/
theorem claim_C2_amended_witness :
    (zonesTGRows look0 [] [rNY]).map (fun z => z.name)
      = ([rNY].filter (fun r => !(tgChannelsOf look0 r.id).isEmpty)).map
          (fun r => (tgZoneNameOf r).take 16) :=
  (claim_C2_amended look0 [] [rNY]).1

/-! ### Sorting and counting lemmas (claim C8) -/

theorem insertBy_perm {α : Type} (lt : α → α → Bool) (x : α) :
    ∀ l : List α, (insertBy lt x l).Perm (x :: l) := by
  intro l
  induction l with
  | nil => exact List.Perm.refl _
  | cons y t ih =>
    unfold insertBy
    by_cases hlt : lt y x = true
    · rw [if_pos hlt]
      exact (List.Perm.cons y ih).trans (List.Perm.swap x y t)
    · rw [if_neg hlt]

theorem sortBy_perm {α : Type} (lt : α → α → Bool) :
    ∀ l : List α, (sortBy lt l).Perm l := by
  intro l
  induction l with
  | nil => exact List.Perm.refl _
  | cons x t ih =>
    exact (insertBy_perm lt x (sortBy lt t)).trans (List.Perm.cons x ih)

theorem mem_insertBy {α : Type} {lt : α → α → Bool} {x a : α} {l : List α} :
    a ∈ insertBy lt x l ↔ a ∈ x :: l :=
  (insertBy_perm lt x l).mem_iff

theorem insertBy_nat_pairwise (x : Nat) :
    ∀ {l : List Nat}, l.Pairwise (· ≤ ·) →
      (insertBy (fun a b => decide (a < b)) x l).Pairwise (· ≤ ·) := by
  intro l
  induction l with
  | nil => intro _; simp [insertBy]
  | cons y t ih =>
    intro h
    rw [List.pairwise_cons] at h
    obtain ⟨hy, ht⟩ := h
    unfold insertBy
    by_cases hlt : decide (y < x) = true
    · rw [if_pos hlt]
      rw [List.pairwise_cons]
      refine ⟨?_, ih ht⟩
      intro a ha
      rcases List.mem_cons.mp (mem_insertBy.mp ha) with rfl | ha
      · simp only [decide_eq_true_eq] at hlt
        omega
      · exact hy a ha
    · rw [if_neg hlt]
      have hxy : x ≤ y := by
        simp only [decide_eq_true_eq] at hlt
        omega
      rw [List.pairwise_cons]
      refine ⟨?_, List.pairwise_cons.mpr ⟨hy, ht⟩⟩
      intro a ha
      rcases List.mem_cons.mp ha with rfl | ha
      · exact hxy
      · exact le_trans hxy (hy a ha)

theorem sortBy_nat_pairwise :
    ∀ l : List Nat, (sortBy (fun a b => decide (a < b)) l).Pairwise (· ≤ ·) := by
  intro l
  induction l with
  | nil => simp [sortBy]
  | cons x t ih => exact insertBy_nat_pairwise x ih

theorem sortedUniqueTGs_nodup (look : IdVal → List TgEntry) (filtered : List Rpt) :
    (sortedUniqueTGs look filtered).Nodup :=
  ((sortBy_perm _ _).nodup_iff).mpr (List.nodup_dedup _)

theorem mem_sortedUniqueTGs {look : IdVal → List TgEntry} {filtered : List Rpt} {tg : Nat} :
    tg ∈ sortedUniqueTGs look filtered ↔ tg ∈ refIds look filtered := by
  rw [sortedUniqueTGs, (sortBy_perm _ _).mem_iff, List.mem_dedup]

theorem sortedUniqueTGs_pairwise_lt (look : IdVal → List TgEntry) (filtered : List Rpt) :
    (sortedUniqueTGs look filtered).Pairwise (· < ·) := by
  have hle := sortBy_nat_pairwise (refIds look filtered).dedup
  have hne : (sortedUniqueTGs look filtered).Pairwise (· ≠ ·) :=
    sortedUniqueTGs_nodup look filtered
  exact (hle.and hne).imp (fun h => lt_of_le_of_ne h.1 h.2)

theorem countP_pointwise {α : Type} {p q : α → Bool} :
    ∀ {l : List α}, (∀ a ∈ l, p a = q a) → l.countP p = l.countP q := by
  intro l
  induction l with
  | nil => intro _; rfl
  | cons a t ih =>
    intro h
    rw [List.countP_cons, List.countP_cons, h a (by simp), ih (fun b hb => h b (by simp [hb]))]

theorem countP_eq_decide_mem {α : Type} [DecidableEq α] {l : List α} (hnd : l.Nodup) (x : α) :
    l.countP (fun t => decide (t = x)) = if x ∈ l then 1 else 0 := by
  induction l with
  | nil => simp
  | cons a t ih =>
    rw [List.nodup_cons] at hnd
    obtain ⟨hna, hndt⟩ := hnd
    rw [List.countP_cons]
    by_cases hax : a = x
    · subst hax
      have h0 : t.countP (fun t => decide (t = a)) = 0 := by
        rw [List.countP_eq_zero]
        intro b hb
        simp only [decide_eq_true_eq]
        intro hba
        exact hna (hba ▸ hb)
      simp [h0]
    · rw [ih hndt]
      have hx : decide (a = x) = false := by simp [hax]
      rw [hx]
      by_cases hxt : x ∈ t
      · have hmem : x ∈ a :: t := List.mem_cons_of_mem a hxt
        simp [hxt, hmem]
      · have hmem : x ∉ a :: t := by
          intro hm
          rcases List.mem_cons.mp hm with rfl | hm
          · exact hax rfl
          · exact hxt hm
        simp [hxt, hmem]

theorem countP_enumFrom_map_row
    (nameLook : List Char → Option (List Char)) (rowsLen : Nat) (s : List Char) :
    ∀ (ids : List Nat) (k : Nat),
      ((enumFrom k ids).map (fun p =>
        [decRepr (rowsLen + p.1), numericExtract p.2, tgName nameLook (numericExtract p.2),
         ("Group Call").data, ("None").data])).countP
        (fun row => decide (row.get? 1 = some s))
      = ids.countP (fun t => decide (decRepr t = s)) := by
  intro ids
  induction ids with
  | nil => intro k; rfl
  | cons t ids ih =>
    intro k
    simp only [enumFrom, List.map_cons, List.countP_cons, ih (k + 1)]
    congr 1
    have hext : numericExtract t = decRepr t := decRepr_filter_digits t
    simp [hext]

theorem countP_newTGRows (nameLook : List Char → Option (List Char)) (rowsLen : Nat)
    (ids : List Nat) (s : List Char) :
    (newTGRows nameLook rowsLen ids).countP (fun row => decide (row.get? 1 = some s))
      = ids.countP (fun t => decide (decRepr t = s)) :=
  countP_enumFrom_map_row nameLook rowsLen s ids 0

theorem countP_rows_eq_dataCount {s : List Char} (hs : s ≠ []) :
    ∀ rows : List (List (List Char)),
      rows.countP (fun row => decide (row.get? 1 = some s))
      = (rows.filterMap rowRadioCell).countP (fun v => decide (v = s)) := by
  intro rows
  induction rows with
  | nil => rfl
  | cons row t ih =>
    rw [List.countP_cons, List.filterMap_cons]
    cases hrc : rowRadioCell row with
    | none =>
      have hfalse : decide (row.get? 1 = some s) = false := by
        simp only [decide_eq_false_iff_not]
        intro hget
        rw [rowRadioCell, hget] at hrc
        have hrc2 : (if s.isEmpty = true then none else (some s : Option (List Char)))
            = none := hrc
        by_cases hse : s.isEmpty = true
        · exact hs (by simpa using hse)
        · rw [if_neg hse] at hrc2
          exact Option.noConfusion hrc2
      rw [hfalse, ih]
      simp
    | some v =>
      have hget : row.get? 1 = some v ∧ v ≠ [] := by
        rw [rowRadioCell] at hrc
        cases hg : row.get? 1 with
        | none => rw [hg] at hrc; exact Option.noConfusion hrc
        | some w =>
          rw [hg] at hrc
          have hrc2 : (if w.isEmpty = true then none else (some w : Option (List Char)))
              = some v := hrc
          by_cases hwe : w.isEmpty = true
          · rw [if_pos hwe] at hrc2
            exact Option.noConfusion hrc2
          · rw [if_neg hwe] at hrc2
            have hwv : w = v := Option.some.inj hrc2
            subst hwv
            exact ⟨rfl, by simpa using hwe⟩
      rw [List.countP_cons, ih]
      congr 1
      rw [hget.1]
      simp

theorem emittedTGRows_eq (nameLook : List Char → Option (List Char))
    (look : IdVal → List TgEntry) (rows : List (List (List Char))) (filtered : List Rpt) :
    emittedTGRows nameLook look rows filtered
      = rows ++ newTGRows nameLook rows.length (newTGIds look filtered rows) := by
  simp only [emittedTGRows]
  by_cases h : (rows.take 2).length = 1
  · rw [if_pos h]
    have hlen : rows.length = 1 := by
      rw [List.length_take] at h
      omega
    cases rows with
    | nil => simp at hlen
    | cons r t =>
      have ht : t = [] := by
        simp only [List.length_cons] at hlen
        exact List.eq_nil_of_length_eq_zero (by omega)
      subst ht
      rfl
  · rw [if_neg h]
    rw [List.take_append_drop]

theorem mem_newTGIds {look : IdVal → List TgEntry} {filtered : List Rpt}
    {rows : List (List (List Char))} {tg : Nat} :
    tg ∈ newTGIds look filtered rows
      ↔ tg ∈ refIds look filtered ∧ decRepr tg ∉ existingIds rows := by
  have hext : numericExtract tg = decRepr tg := decRepr_filter_digits tg
  constructor
  · intro h
    obtain ⟨hmem, hcond⟩ := List.mem_filter.mp h
    rw [mem_sortedUniqueTGs] at hmem
    simp only [hext, decide_eq_true_eq] at hcond
    exact ⟨hmem, hcond.2⟩
  · rintro ⟨hmemref, hnotex⟩
    refine List.mem_filter.mpr ⟨mem_sortedUniqueTGs.mpr hmemref, ?_⟩
    simp only [hext, decide_eq_true_eq]
    exact ⟨decRepr_ne_nil tg, hnotex⟩

theorem newTGIds_nodup (look : IdVal → List TgEntry) (filtered : List Rpt)
    (rows : List (List (List Char))) : (newTGIds look filtered rows).Nodup :=
  (sortedUniqueTGs_nodup look filtered).filter _

theorem newTGIds_pairwise_lt (look : IdVal → List TgEntry) (filtered : List Rpt)
    (rows : List (List (List Char))) : (newTGIds look filtered rows).Pairwise (· < ·) :=
  (sortedUniqueTGs_pairwise_lt look filtered).filter _

theorem countP_drop2_eq {s : List Char} (hs : s ≠ []) (rows : List (List (List Char))) :
    (rows.drop 2).countP (fun row => decide (row.get? 1 = some s))
      = (dataIds rows).countP (fun v => decide (v = s)) :=
  countP_rows_eq_dataCount hs (rows.drop 2)

/-- Claim C8: in talkgroup mode, every talkgroup id referenced by a channel
record appears exactly once among the data rows of the talkgroups table
written in the same run (the pre-supplied table followed by the newly
discovered ids), and the new ids are appended in strictly ascending numeric
order, never duplicating an existing Radio ID.  Hypotheses: the table has
its fixed 2-row header, its data-row Radio IDs are distinct, and the header
rows do not masquerade as a referenced numeric id; the lookup collaborator
is a function, hence deterministic across the two passes. -/
theorem claim_C8 (look : IdVal → List TgEntry) (nameLook : List Char → Option (List Char))
    (filtered : List Rpt) (rows : List (List (List Char)))
    (h1 : 2 ≤ rows.length)
    (h2 : (dataIds rows).Nodup)
    (h3 : ∀ tg ∈ refIds look filtered,
      (decRepr tg ∈ existingIds rows ↔ decRepr tg ∈ dataIds rows)) :
    (∀ tg ∈ refIds look filtered,
      ((emittedTGRows nameLook look rows filtered).drop 2).countP
        (fun row => decide (row.get? 1 = some (decRepr tg))) = 1)
    ∧ (newTGIds look filtered rows).Pairwise (· < ·) := by
  refine ⟨?_, newTGIds_pairwise_lt look filtered rows⟩
  intro tg htg
  rw [emittedTGRows_eq, List.drop_append_of_le_length h1, List.countP_append]
  rw [countP_drop2_eq (decRepr_ne_nil tg) rows]
  rw [countP_newTGRows]
  have hnew : (newTGIds look filtered rows).countP (fun t => decide (decRepr t = decRepr tg))
      = (newTGIds look filtered rows).countP (fun t => decide (t = tg)) :=
    countP_pointwise (fun a _ =>
      decide_eq_decide.mpr ⟨fun h => decRepr_inj h, fun h => congrArg decRepr h⟩)
  rw [hnew, countP_eq_decide_mem h2 (decRepr tg),
    countP_eq_decide_mem (newTGIds_nodup look filtered rows) tg]
  by_cases hex : decRepr tg ∈ existingIds rows
  · have hdata_mem : decRepr tg ∈ dataIds rows := (h3 tg htg).mp hex
    have hnotnew : tg ∉ newTGIds look filtered rows := fun hn =>
      (mem_newTGIds.mp hn).2 hex
    rw [if_pos hdata_mem, if_neg hnotnew]
  · have hdata_not : decRepr tg ∉ dataIds rows := fun hd => hex ((h3 tg htg).mpr hd)
    have hnewmem : tg ∈ newTGIds look filtered rows := mem_newTGIds.mpr ⟨htg, hex⟩
    rw [if_neg hdata_not, if_pos hnewmem]

/-- Witness for C8: repeater `rNY` references talkgroups 91 and 9 against
the concrete pre-supplied table `rows0`. -/
theorem claim_C8_witness :
    ((emittedTGRows nameLook0 look0 rows0 [rNY]).drop 2).countP
      (fun row => decide (row.get? 1 = some (decRepr 9))) = 1 :=
  (claim_C8 look0 nameLook0 [rNY] rows0 (by decide) (by decide) (by decide)).1 9 (by decide)

end AnyBM
